import Mathlib

/-!
Verification of the Huffman / Shannon-Fano compression engine.

Shallow embedding of the repository's Python sources:
  * `src/src/algorithms.py`  — `Node`, `HuffmanCoder`, `ShannonFanoCoder`
  * `src/main.py`            — bit packing of the encoded stream
  * `src/read_bin.py`        — unpacking of the packed stream
  * `src/src/error_analysis.py` — MSE and SER metrics

Bytes are modelled as `Nat`, bit strings as `List Bool` (`false` = '0',
`true` = '1'), Python dicts as insertion-ordered association lists, and
Python `None` children of tree nodes by the `NTree.nil` constructor.
A Python exception raised during decoding (attribute access on `None`)
is modelled as `Option.none`; note that the exception carries no partial
output, so neither does the embedded `none`.
-/

/-- A `Node` of `algorithms.py`: `char` (`None` for internal nodes), `freq`,
and the two optional children.  `NTree.nil` models the Python value `None`. -/
inductive NTree where
  | nil : NTree
  | node (char : Option Nat) (freq : Nat) (left right : NTree) : NTree
deriving DecidableEq

/-- `Node.__lt__` of `algorithms.py` (lines 16-34): compare by frequency,
breaking ties by preferring leaves over internal nodes, and for two leaves
by the smaller symbol value; two internal nodes of equal weight compare
`False`.  Only ever invoked on actual nodes, so the `nil` rows are dead. -/
def nodeLt : NTree → NTree → Bool
  | NTree.node c1 f1 _ _, NTree.node c2 f2 _ _ =>
    if f1 = f2 then
      match c1, c2 with
      | some a, some b => decide (a < b)
      | some _, none => true
      | none, some _ => false
      | none, none => false
    else decide (f1 < f2)
  | _, _ => false

/-- One step of building `collections.Counter` key order: a key is appended
on its first occurrence (Python dicts preserve insertion order). -/
def insertKey (ks : List Nat) (a : Nat) : List Nat :=
  if a ∈ ks then ks else ks ++ [a]

/-- The keys of `Counter(data)` in iteration order (first-occurrence order). -/
def counterKeys (data : List Nat) : List Nat :=
  data.foldl insertKey []

/-- `Counter(data).items()`: each distinct byte with its occurrence count. -/
def counterItems (data : List Nat) : List (Nat × Nat) :=
  (counterKeys data).map (fun c => (c, data.count c))

/-- Python list indexing as used by `heapq` (indices are always in range). -/
def listGet (l : List NTree) (i : Nat) : NTree :=
  l.getD i NTree.nil

/-- The `while pos > startpos` loop of CPython's `heapq._siftdown`, with a
fuel argument bounding the iteration count; `pos` strictly decreases every
iteration, so fuel `pos + 1` (supplied by `siftdown`) is never exhausted. -/
def siftdownLoopN : Nat → List NTree → Nat → Nat → NTree → List NTree
  | 0, heap, _, pos, newitem => heap.set pos newitem
  | fuel + 1, heap, startpos, pos, newitem =>
    if startpos < pos then
      let parentpos := (pos - 1) / 2
      let parent := listGet heap parentpos
      if nodeLt newitem parent then
        siftdownLoopN fuel (heap.set pos parent) startpos parentpos newitem
      else heap.set pos newitem
    else heap.set pos newitem

/-- CPython `heapq._siftdown`. -/
def siftdown (heap : List NTree) (startpos pos : Nat) : List NTree :=
  siftdownLoopN (pos + 1) heap startpos pos (listGet heap pos)

/-- The `while childpos < endpos` loop of CPython's `heapq._siftup`; `pos`
strictly increases and stays below `heap.length`, so fuel `heap.length`
(supplied by `siftup`) is never exhausted.  The fuel-0 row coincides with
the loop-exit continuation. -/
def siftupLoopN : Nat → List NTree → Nat → Nat → NTree → List NTree
  | 0, heap, startpos, pos, newitem => siftdown (heap.set pos newitem) startpos pos
  | fuel + 1, heap, startpos, pos, newitem =>
    let endpos := heap.length
    let childpos := 2 * pos + 1
    if childpos < endpos then
      let rightpos := childpos + 1
      let childpos2 :=
        if rightpos < endpos && !(nodeLt (listGet heap childpos) (listGet heap rightpos)) then
          rightpos
        else childpos
      siftupLoopN fuel (heap.set pos (listGet heap childpos2)) startpos childpos2 newitem
    else siftdown (heap.set pos newitem) startpos pos

/-- CPython `heapq._siftup`. -/
def siftup (heap : List NTree) (pos : Nat) : List NTree :=
  siftupLoopN heap.length heap pos pos (listGet heap pos)

/-- CPython `heapq.heappush`. -/
def heappushHeap (heap : List NTree) (item : NTree) : List NTree :=
  siftdown (heap ++ [item]) 0 heap.length

/-- CPython `heapq.heappop`: pop the last element, move it to the root and
sift up, returning the old root.  Never called on an empty heap. -/
def heappopHeap (heap : List NTree) : NTree × List NTree :=
  let lastelt := listGet heap (heap.length - 1)
  let rest := heap.dropLast
  if rest.isEmpty then (lastelt, rest)
  else (listGet rest 0, siftup (rest.set 0 lastelt) 0)

/-- CPython `heapq.heapify`: sift up every index in `reversed(range(n//2))`. -/
def heapifyList (heap : List NTree) : List NTree :=
  ((List.range (heap.length / 2)).reverse).foldl (fun h i => siftup h i) heap

/-- `node.freq`; only read off actual nodes. -/
def nfreq : NTree → Nat
  | NTree.nil => 0
  | NTree.node _ f _ _ => f

/-- The `while len(pq) > 1` merge loop of `HuffmanCoder.encode`.  Each
iteration shrinks the heap by one element, so fuel `pq.length` (supplied by
`huffmanEncode`) is never exhausted. -/
def buildLoopN : Nat → List NTree → List NTree
  | 0, pq => pq
  | fuel + 1, pq =>
    if 1 < pq.length then
      let p1 := heappopHeap pq
      let p2 := heappopHeap p1.2
      let merged := NTree.node none (nfreq p1.1 + nfreq p2.1) p1.1 p2.1
      buildLoopN fuel (heappushHeap p2.2 merged)
    else pq

/-- Assignment `d[k] = v` on a Python dict modelled as an association list:
update in place if the key is present, else append. -/
def dictSet (d : List (Nat × List Bool)) (k : Nat) (v : List Bool) : List (Nat × List Bool) :=
  if (d.lookup k).isSome then d.map (fun p => if p.1 = k then (k, v) else p)
  else d ++ [(k, v)]

/-- `HuffmanCoder._generate_codes` (lines 125-134): depth-first traversal
recording `current_code` at every node whose `char` is set. -/
def generateCodes : NTree → List Bool → List (Nat × List Bool) → List (Nat × List Bool)
  | NTree.nil, _, codes => codes
  | NTree.node (some c) _ _ _, cur, codes => dictSet codes c cur
  | NTree.node none _ l r, cur, codes =>
    generateCodes r (cur ++ [true]) (generateCodes l (cur ++ [false]) codes)

/-- `"".join(codes[byte] for byte in data)`; every byte of the data is a
key of the codebook, so the `getD` default is never used. -/
def encodeBits (codes : List (Nat × List Bool)) (data : List Nat) : List Bool :=
  (data.map (fun b => (codes.lookup b).getD [])).flatten

/-- `HuffmanCoder.encode` (lines 85-123): returns the encoded bit string,
the codebook and the root of the Huffman tree. -/
def huffmanEncode (data : List Nat) : List Bool × List (Nat × List Bool) × NTree :=
  if data = [] then ([], [], NTree.nil)
  else
    let pq := heapifyList
      ((counterItems data).map (fun p => NTree.node (some p.1) p.2 NTree.nil NTree.nil))
    let pq2 := buildLoopN pq.length pq
    let root := listGet pq2 0
    let codes := generateCodes root [] []
    (encodeBits codes data, codes, root)

/-- The shared decoding walk of `HuffmanCoder.decode` (lines 146-155) and
`ShannonFanoCoder.decode` (lines 259-268): step to the left/right child per
bit, emit the symbol and reset to the root on reaching a set `char`.
Stepping onto a `None` child makes Python dereference `None.char`, raising
`AttributeError`; that is the `none` outcome (the accumulator is lost). -/
def decodeLoop (root : NTree) : List Bool → NTree → List Nat → Option (List Nat)
  | [], _, acc => some acc.reverse
  | b :: bs, cur, acc =>
    match cur with
    | NTree.nil => none
    | NTree.node _ _ l r =>
      match (if b then r else l) with
      | NTree.nil => none
      | NTree.node none f2 l2 r2 => decodeLoop root bs (NTree.node none f2 l2 r2) acc
      | NTree.node (some ch) _ _ _ => decodeLoop root bs root (ch :: acc)

/-- `HuffmanCoder.decode` (lines 136-156). -/
def huffDecode (bits : List Bool) (root : NTree) : Option (List Nat) :=
  if bits = [] ∨ root = NTree.nil then some []
  else decodeLoop root bits root []

/-- The sort key relation of `ShannonFanoCoder.encode` line 178:
`sorted(freq.items(), key=lambda item: item[1], reverse=True)`, i.e.
descending by frequency.  `x` may precede `y` when `y.2 ≤ x.2`. -/
def sfr (x y : Nat × Nat) : Prop := y.2 ≤ x.2

instance : DecidableRel sfr := fun x y => Nat.decLe y.2 x.2

instance : IsTotal (Nat × Nat) sfr := ⟨fun x y => Nat.le_total y.2 x.2⟩

instance : IsTrans (Nat × Nat) sfr := ⟨fun _ _ _ h1 h2 => Nat.le_trans h2 h1⟩

/-- Python's `sorted` is a stable sort; a stable insertion sort with the
same key produces the identical list. -/
def sortDesc (l : List (Nat × Nat)) : List (Nat × Nat) :=
  List.insertionSort sfr l

/-- Total frequency of a symbol list (`sum(s[1] for s in symbols)`). -/
def sumFreq (symbols : List (Nat × Nat)) : Nat :=
  (symbols.map (fun s => s.2)).sum

/-- `abs(running_sum - remaining_sum)` at candidate split index `i`
(the left part is `symbols[:i+1]`, the right part `symbols[i+1:]`). -/
def splitDiff (symbols : List (Nat × Nat)) (i : Nat) : Nat :=
  ((sumFreq (symbols.take (i + 1)) : Int) - (sumFreq (symbols.drop (i + 1)) : Int)).natAbs

/-- One iteration of the split-search loop of `_recursive_split`
(lines 210-220); the accumulator is `(min_diff, split_idx)`, with
`min_diff = float('inf')` modelled as `none`. -/
def findSplitAcc (symbols : List (Nat × Nat)) (acc : Option Nat × Nat) (i : Nat) :
    Option Nat × Nat :=
  let d := splitDiff symbols i
  match acc.1 with
  | none => (some d, i)
  | some m => if d < m then (some d, i) else acc

/-- The split index chosen by `_recursive_split`: the first index in
`range(len(symbols) - 1)` attaining the minimal `splitDiff`. -/
def findSplit (symbols : List (Nat × Nat)) : Nat :=
  ((List.range (symbols.length - 1)).foldl (findSplitAcc symbols) (none, 0)).2

/-- `ShannonFanoCoder._recursive_split` (lines 192-227), with a fuel
argument bounding the recursion depth; both recursive calls get strictly
shorter symbol lists, so fuel `symbols.length` (supplied by
`shannonFanoEncode`) is never exhausted. -/
def sfSplitN : Nat → List (Nat × Nat) → List Bool → List (Nat × List Bool) →
    List (Nat × List Bool)
  | 0, _, _, codes => codes
  | _ + 1, [], _, codes => codes
  | _ + 1, [s], code, codes => dictSet codes s.1 (if code = [] then [false] else code)
  | fuel + 1, a :: b :: rest, code, codes =>
    let symbols := a :: b :: rest
    let k := findSplit symbols
    let codes1 := sfSplitN fuel (symbols.take (k + 1)) (code ++ [false]) codes
    sfSplitN fuel (symbols.drop (k + 1)) (code ++ [true]) codes1

/-- `ShannonFanoCoder.encode` (lines 164-190): returns the encoded bit
string and the codebook twice (the codebook doubles as decode metadata). -/
def shannonFanoEncode (data : List Nat) :
    List Bool × List (Nat × List Bool) × List (Nat × List Bool) :=
  if data = [] then ([], [], [])
  else
    let symbols := sortDesc (counterItems data)
    let codes := sfSplitN symbols.length symbols [] []
    (encodeBits codes data, codes, codes)

/-- Inserting one code string into the decode tree built by
`ShannonFanoCoder.decode` (lines 240-250): walk the code, creating empty
internal nodes for missing children, and set `char` at the final node. -/
def insertPath : NTree → List Bool → Nat → NTree
  | NTree.node _ f l r, [], c => NTree.node (some c) f l r
  | NTree.node ch f l r, false :: bs, c =>
    let l2 := match l with
      | NTree.nil => NTree.node none 0 NTree.nil NTree.nil
      | _ => l
    NTree.node ch f (insertPath l2 bs c) r
  | NTree.node ch f l r, true :: bs, c =>
    let r2 := match r with
      | NTree.nil => NTree.node none 0 NTree.nil NTree.nil
      | _ => r
    NTree.node ch f l (insertPath r2 bs c)
  | NTree.nil, _, _ => NTree.nil

/-- The decode tree rebuilt from a codebook by `ShannonFanoCoder.decode`. -/
def sfBuildTree (codes : List (Nat × List Bool)) : NTree :=
  codes.foldl (fun t p => insertPath t p.2 p.1) (NTree.node none 0 NTree.nil NTree.nil)

/-- `ShannonFanoCoder.decode` (lines 229-270): rebuild a tree from the
codebook, then run the same bit-walk as the Huffman decoder. -/
def sfDecode (bits : List Bool) (codes : List (Nat × List Bool)) : Option (List Nat) :=
  let root := sfBuildTree codes
  if bits = [] then some []
  else decodeLoop root bits root []

/-- Padding computation of `main.py` lines 123-125:
`extra_padding = 8 - len(bits) % 8`, reset to `0` when it equals `8`. -/
def packPad (n : Nat) : Nat :=
  if 8 - n % 8 = 8 then 0 else 8 - n % 8

/-- Value of an 8-bit group, most significant bit first (the semantics of
`int(padded_bits, 2).to_bytes(len // 8, byteorder='big')`). -/
def byteOfBits (bs : List Bool) : Nat :=
  bs.foldl (fun a b => 2 * a + (if b then 1 else 0)) 0

/-- Split a bit string whose length is a multiple of 8 into bytes,
MSB-first (`main.py` line 131).  The under-8 leftover row is dead: `pack`
always passes a padded stream. -/
def bitsToBytes : List Bool → List Nat
  | b0 :: b1 :: b2 :: b3 :: b4 :: b5 :: b6 :: b7 :: rest =>
    byteOfBits [b0, b1, b2, b3, b4, b5, b6, b7] :: bitsToBytes rest
  | _ => []

/-- The bit packing of `main.py` lines 122-133: right-pad with zero bits to
a multiple of 8, then convert 8-bit groups MSB-first into bytes.  Returns
`(extra_padding, byte_array)`. -/
def pack (bits : List Bool) : Nat × List Nat :=
  let p := packPad bits.length
  (p, bitsToBytes (bits ++ List.replicate p false))

/-- `format(byte, '08b')` for a byte value: its 8 bits, MSB first. -/
def bitsOfByte (n : Nat) : List Bool :=
  [decide (n / 128 % 2 = 1), decide (n / 64 % 2 = 1), decide (n / 32 % 2 = 1),
   decide (n / 16 % 2 = 1), decide (n / 8 % 2 = 1), decide (n / 4 % 2 = 1),
   decide (n / 2 % 2 = 1), decide (n % 2 = 1)]

/-- The unpacking of `read_bin.py` lines 41-48: expand each payload byte to
8 bits MSB-first, concatenate, and drop the trailing `padding` bits (only
when `padding > 0`, matching `bit_string[:-padding_bits]`). -/
def unpack (padding : Nat) (payload : List Nat) : List Bool :=
  let s := (payload.map bitsOfByte).flatten
  if 0 < padding then s.take (s.length - padding) else s

/-- `calculate_mse` of `error_analysis.py` (lines 47-68).  The two buffers
are truncated to the shared prefix and viewed as `np.uint8` arrays, so both
the subtraction and the squaring wrap modulo 256; the mean is exact, taken
in `ℚ` (the float64 mean of at most 255-valued terms). -/
def calculate_mse (a b : List Nat) : ℚ :=
  let n := min a.length b.length
  if n = 0 then 0
  else
    let sq : List Nat := ((a.take n).zip (b.take n)).map
      (fun p => ((((p.1 : Int) - (p.2 : Int)) % 256).natAbs ^ 2) % 256)
    (sq.sum : ℚ) / (n : ℚ)

/-- `calculate_ser_text` of `error_analysis.py` (lines 79-99): early return
`0.0` when the shared prefix is empty, else mismatches over the shared
prefix plus the length difference, divided by `len(original)`. -/
def calculate_ser_text (a b : List Nat) : ℚ :=
  if min a.length b.length = 0 then 0
  else
    let mismatches := (a.zip b).countP (fun p => decide (p.1 ≠ p.2))
    let lenDiff := ((a.length : Int) - (b.length : Int)).natAbs
    if a.length = 0 then 0
    else ((mismatches : ℚ) + (lenDiff : ℚ)) / (a.length : ℚ)

/-- The SER formula as the specification states it (`spec.md` §4.7):
`(mismatches_in_shared_prefix + |len(a)-len(b)|) / len(a)`, and `0.0` iff
`len(a) == 0`.  Spec-side definition, for comparison with
`calculate_ser_text`. -/
def serClaim (a b : List Nat) : ℚ :=
  if a.length = 0 then 0
  else
    let mismatches := (a.zip b).countP (fun p => decide (p.1 ≠ p.2))
    let lenDiff := ((a.length : Int) - (b.length : Int)).natAbs
    ((mismatches : ℚ) + (lenDiff : ℚ)) / (a.length : ℚ)

/-- `isInit s t` holds when `s` is an initial segment (prefix) of `t`. -/
def isInit : List Bool → List Bool → Bool
  | [], _ => true
  | _ :: _, [] => false
  | a :: s, b :: t => a == b && isInit s t

/-- The `(char, current_code)` pairs recorded by `generateCodes`, in
recording order. -/
def recEntries : NTree → List Bool → List (Nat × List Bool)
  | NTree.nil, _ => []
  | NTree.node (some c) _ _ _, cur => [(c, cur)]
  | NTree.node none _ l r, cur =>
    recEntries l (cur ++ [false]) ++ recEntries r (cur ++ [true])

/-- The `(symbol, code)` pairs recorded by `sfSplitN`, in recording order. -/
def sfEntriesN : Nat → List (Nat × Nat) → List Bool → List (Nat × List Bool)
  | 0, _, _ => []
  | _ + 1, [], _ => []
  | _ + 1, [s], code => [(s.1, if code = [] then [false] else code)]
  | fuel + 1, a :: b :: rest, code =>
    let symbols := a :: b :: rest
    let k := findSplit symbols
    sfEntriesN fuel (symbols.take (k + 1)) (code ++ [false]) ++
      sfEntriesN fuel (symbols.drop (k + 1)) (code ++ [true])

/-- State-tracking variant of `decodeLoop`: returns the final tree position
together with the reversed list of emitted symbols. -/
def decodeStLoop (root : NTree) : List Bool → NTree → List Nat → Option (NTree × List Nat)
  | [], cur, acc => some (cur, acc)
  | b :: bs, cur, acc =>
    match cur with
    | NTree.nil => none
    | NTree.node _ _ l r =>
      match (if b then r else l) with
      | NTree.nil => none
      | NTree.node none f2 l2 r2 => decodeStLoop root bs (NTree.node none f2 l2 r2) acc
      | NTree.node (some ch) _ _ _ => decodeStLoop root bs root (ch :: acc)

/-- One traversal step: `0` goes left, `1` goes right (`nil` is absorbing). -/
def childOf (t : NTree) (b : Bool) : NTree :=
  match t with
  | NTree.nil => NTree.nil
  | NTree.node _ _ l r => if b then r else l

/-- Pure traversal of a bit string from a node, with no emit/reset. -/
def walkFrom (t : NTree) (bs : List Bool) : NTree :=
  bs.foldl childOf t

/-- An internal node: an actual node whose `char` is unset. -/
def isIntNode : NTree → Bool
  | NTree.node none _ _ _ => true
  | _ => false

/-- Every internal node has both children present (the shape of every
Huffman tree built by merging). -/
def isFull : NTree → Bool
  | NTree.nil => true
  | NTree.node (some _) _ _ _ => true
  | NTree.node none _ l r =>
    decide (l ≠ NTree.nil) && decide (r ≠ NTree.nil) && isFull l && isFull r

/-! ### Prefix kit for bit strings -/

theorem isInit_iff_take (s t : List Bool) : isInit s t = true ↔ t.take s.length = s := by
  induction s generalizing t with
  | nil => simp [isInit]
  | cons a s ih =>
    cases t with
    | nil => simp [isInit]
    | cons b t =>
      simp only [isInit, Bool.and_eq_true, beq_iff_eq, List.length_cons,
        List.take_succ_cons, List.cons.injEq, ih]
      constructor
      · rintro ⟨h1, h2⟩
        exact ⟨h1.symm, h2⟩
      · rintro ⟨h1, h2⟩
        exact ⟨h1.symm, h2⟩

theorem isInit_refl (s : List Bool) : isInit s s = true := by
  rw [isInit_iff_take]
  simp

theorem isInit_append_right (s u : List Bool) : isInit s (s ++ u) = true := by
  rw [isInit_iff_take]
  exact List.take_left s u

theorem isInit_length_le {s t : List Bool} (h : isInit s t = true) : s.length ≤ t.length := by
  rw [isInit_iff_take] at h
  have hl := congrArg List.length h
  simp only [List.length_take] at hl
  omega

theorem isInit_trans {s t u : List Bool} (h1 : isInit s t = true) (h2 : isInit t u = true) :
    isInit s u = true := by
  have hst := isInit_length_le h1
  rw [isInit_iff_take] at h1 h2 ⊢
  calc u.take s.length = (u.take t.length).take s.length := by
        rw [List.take_take, min_eq_left hst]
    _ = t.take s.length := by rw [h2]
    _ = s := h1

theorem branch_isInit_false {c x y : List Bool} {u w : Bool}
    (hx : isInit (c ++ [u]) x = true) (hy : isInit (c ++ [w]) y = true)
    (huw : u ≠ w) : isInit x y = false := by
  by_contra h
  have hxy : isInit x y = true := by
    cases hxy : isInit x y with
    | false => exact absurd hxy h
    | true => rfl
  have h1 : isInit (c ++ [u]) y = true := isInit_trans hx hxy
  rw [isInit_iff_take] at h1 hy
  have hl : (c ++ [u]).length = (c ++ [w]).length := by simp
  rw [hl, hy] at h1
  have := List.append_cancel_left h1
  simp only [List.cons.injEq, and_true] at this
  exact huw this.symm

/-! ### The Huffman codebook is prefix-free, for every tree -/

theorem recEntries_extends {t : NTree} :
    ∀ {cur : List Bool} {k : Nat} {v : List Bool},
      (k, v) ∈ recEntries t cur → isInit cur v = true := by
  induction t with
  | nil => intro cur k v h; simp [recEntries] at h
  | node c f l r ihl ihr =>
    intro cur k v h
    cases c with
    | some c0 =>
      simp only [recEntries, List.mem_singleton, Prod.mk.injEq] at h
      rw [h.2]
      exact isInit_refl cur
    | none =>
      simp only [recEntries, List.mem_append] at h
      rcases h with h | h
      · exact isInit_trans (isInit_append_right cur [false]) (ihl h)
      · exact isInit_trans (isInit_append_right cur [true]) (ihr h)

/-- The pairwise relation used for prefix-freedom of recorded entries. -/
def entRel (p q : Nat × List Bool) : Prop :=
  isInit p.2 q.2 = false ∧ isInit q.2 p.2 = false

theorem entRel_symm : Symmetric entRel := by
  intro p q h
  exact ⟨h.2, h.1⟩

theorem recEntries_pairwise (t : NTree) :
    ∀ cur : List Bool, (recEntries t cur).Pairwise entRel := by
  induction t with
  | nil => intro cur; simp [recEntries]
  | node c f l r ihl ihr =>
    intro cur
    cases c with
    | some c0 => simp [recEntries]
    | none =>
      simp only [recEntries]
      rw [List.pairwise_append]
      refine ⟨ihl _, ihr _, ?_⟩
      intro a ha b hb
      have hia : isInit (cur ++ [false]) a.2 = true := by
        rcases a with ⟨ak, av⟩
        exact recEntries_extends ha
      have hib : isInit (cur ++ [true]) b.2 = true := by
        rcases b with ⟨bk, bv⟩
        exact recEntries_extends hb
      exact ⟨branch_isInit_false hia hib (by simp), branch_isInit_false hib hia (by simp)⟩

theorem generateCodes_eq_foldl (t : NTree) :
    ∀ (cur : List Bool) (codes : List (Nat × List Bool)),
      generateCodes t cur codes =
        (recEntries t cur).foldl (fun d p => dictSet d p.1 p.2) codes := by
  induction t with
  | nil => intro cur codes; simp [generateCodes, recEntries]
  | node c f l r ihl ihr =>
    intro cur codes
    cases c with
    | some c0 => simp [generateCodes, recEntries]
    | none =>
      simp only [generateCodes, recEntries]
      rw [List.foldl_append, ihl, ihr]

theorem dictSet_mem {d : List (Nat × List Bool)} {k0 : Nat} {v0 : List Bool}
    {k : Nat} {v : List Bool} (h : (k, v) ∈ dictSet d k0 v0) :
    (k, v) = (k0, v0) ∨ (k, v) ∈ d := by
  unfold dictSet at h
  split at h
  · rcases List.mem_map.1 h with ⟨p, hp, hpe⟩
    by_cases hk : p.1 = k0
    · simp only [hk, if_pos rfl] at hpe
      exact Or.inl hpe.symm
    · simp only [if_neg hk] at hpe
      exact Or.inr (hpe ▸ hp)
  · rcases List.mem_append.1 h with h | h
    · exact Or.inr h
    · simp only [List.mem_singleton] at h
      exact Or.inl h

theorem foldl_dictSet_mem {L : List (Nat × List Bool)} :
    ∀ {d : List (Nat × List Bool)} {k : Nat} {v : List Bool},
      (k, v) ∈ L.foldl (fun d p => dictSet d p.1 p.2) d → (k, v) ∈ L ∨ (k, v) ∈ d := by
  induction L with
  | nil => intro d k v h; exact Or.inr h
  | cons p rest ih =>
    intro d k v h
    simp only [List.foldl_cons] at h
    rcases ih h with h2 | h2
    · exact Or.inl (List.mem_cons_of_mem _ h2)
    · rcases dictSet_mem h2 with h3 | h3
      · left
        rw [h3]
        exact List.mem_cons_self _ _
      · exact Or.inr h3

theorem generateCodes_prefix_free {t : NTree} {k1 k2 : Nat} {v1 v2 : List Bool}
    (hne : k1 ≠ k2) (h1 : (k1, v1) ∈ generateCodes t [] [])
    (h2 : (k2, v2) ∈ generateCodes t [] []) : isInit v1 v2 = false := by
  rw [generateCodes_eq_foldl] at h1 h2
  have m1 : (k1, v1) ∈ recEntries t [] := by
    rcases foldl_dictSet_mem h1 with h | h
    · exact h
    · simp at h
  have m2 : (k2, v2) ∈ recEntries t [] := by
    rcases foldl_dictSet_mem h2 with h | h
    · exact h
    · simp at h
  have hpair := List.Pairwise.forall entRel_symm (recEntries_pairwise t []) m1 m2 (by
    intro he
    exact hne (congrArg Prod.fst he))
  exact hpair.1

/-! ### The Shannon-Fano codebook is prefix-free -/

theorem sfEntriesN_extends :
    ∀ (fuel : Nat) (symbols : List (Nat × Nat)) (code : List Bool) (k : Nat) (v : List Bool),
      (k, v) ∈ sfEntriesN fuel symbols code → isInit code v = true := by
  intro fuel
  induction fuel with
  | zero => intro symbols code k v h; simp [sfEntriesN] at h
  | succ fuel ih =>
    intro symbols code k v h
    match symbols with
    | [] => simp [sfEntriesN] at h
    | [s] =>
      simp only [sfEntriesN, List.mem_singleton, Prod.mk.injEq] at h
      rw [h.2]
      by_cases hc : code = []
      · rw [if_pos hc, hc]
        rfl
      · rw [if_neg hc]
        exact isInit_refl code
    | a :: b :: rest =>
      simp only [sfEntriesN, List.mem_append] at h
      rcases h with h | h
      · exact isInit_trans (isInit_append_right code [false]) (ih _ _ _ _ h)
      · exact isInit_trans (isInit_append_right code [true]) (ih _ _ _ _ h)

theorem sfEntriesN_pairwise :
    ∀ (fuel : Nat) (symbols : List (Nat × Nat)) (code : List Bool),
      (sfEntriesN fuel symbols code).Pairwise entRel := by
  intro fuel
  induction fuel with
  | zero => intro symbols code; simp [sfEntriesN]
  | succ fuel ih =>
    intro symbols code
    match symbols with
    | [] => simp [sfEntriesN]
    | [s] => simp [sfEntriesN]
    | a :: b :: rest =>
      simp only [sfEntriesN]
      rw [List.pairwise_append]
      refine ⟨ih _ _, ih _ _, ?_⟩
      intro p hp q hq
      have hip : isInit (code ++ [false]) p.2 = true := by
        rcases p with ⟨pk, pv⟩
        exact sfEntriesN_extends _ _ _ _ _ hp
      have hiq : isInit (code ++ [true]) q.2 = true := by
        rcases q with ⟨qk, qv⟩
        exact sfEntriesN_extends _ _ _ _ _ hq
      exact ⟨branch_isInit_false hip hiq (by simp), branch_isInit_false hiq hip (by simp)⟩

theorem sfSplitN_eq_foldl :
    ∀ (fuel : Nat) (symbols : List (Nat × Nat)) (code : List Bool)
      (codes : List (Nat × List Bool)),
      sfSplitN fuel symbols code codes =
        (sfEntriesN fuel symbols code).foldl (fun d p => dictSet d p.1 p.2) codes := by
  intro fuel
  induction fuel with
  | zero => intro symbols code codes; simp [sfSplitN, sfEntriesN]
  | succ fuel ih =>
    intro symbols code codes
    match symbols with
    | [] => simp [sfSplitN, sfEntriesN]
    | [s] => simp [sfSplitN, sfEntriesN]
    | a :: b :: rest =>
      simp only [sfSplitN, sfEntriesN]
      rw [List.foldl_append, ih, ih]

theorem sfSplitN_prefix_free {fuel : Nat} {symbols : List (Nat × Nat)}
    {k1 k2 : Nat} {v1 v2 : List Bool} (hne : k1 ≠ k2)
    (h1 : (k1, v1) ∈ sfSplitN fuel symbols [] [])
    (h2 : (k2, v2) ∈ sfSplitN fuel symbols [] []) : isInit v1 v2 = false := by
  rw [sfSplitN_eq_foldl] at h1 h2
  have m1 : (k1, v1) ∈ sfEntriesN fuel symbols [] := by
    rcases foldl_dictSet_mem h1 with h | h
    · exact h
    · simp at h
  have m2 : (k2, v2) ∈ sfEntriesN fuel symbols [] := by
    rcases foldl_dictSet_mem h2 with h | h
    · exact h
    · simp at h
  have hpair := List.Pairwise.forall entRel_symm (sfEntriesN_pairwise fuel symbols []) m1 m2 (by
    intro he
    exact hne (congrArg Prod.fst he))
  exact hpair.1

/-- C4.  Every codebook returned by either coder on a non-empty input is
prefix-free: codes of distinct symbols are never prefixes of one another. -/
theorem codebooks_prefix_free (d : List Nat) (k1 k2 : Nat) (v1 v2 : List Bool)
    (hd : d ≠ []) (hne : k1 ≠ k2) :
    ((k1, v1) ∈ (huffmanEncode d).2.1 → (k2, v2) ∈ (huffmanEncode d).2.1 →
      isInit v1 v2 = false) ∧
    ((k1, v1) ∈ (shannonFanoEncode d).2.1 → (k2, v2) ∈ (shannonFanoEncode d).2.1 →
      isInit v1 v2 = false) := by
  constructor
  · intro h1 h2
    simp only [huffmanEncode, if_neg hd] at h1 h2
    exact generateCodes_prefix_free hne h1 h2
  · intro h1 h2
    simp only [shannonFanoEncode, if_neg hd] at h1 h2
    exact sfSplitN_prefix_free hne h1 h2

theorem codebooks_prefix_free_witness :
    isInit [false] [true] = false ∧ isInit [true] [false] = false :=
  ⟨(codebooks_prefix_free [0, 1] 0 1 [false] [true] (by decide) (by decide)).1
      (by decide) (by decide),
   (codebooks_prefix_free [0, 1] 1 0 [true] [false] (by decide) (by decide)).2
      (by decide) (by decide)⟩

/-! ### Huffman tie-break rule (C6) -/

/-- C6.  `Node.__lt__` implements exactly the documented tie-break: lower
weight first; at equal weight a leaf sorts before an internal node; two
leaves of equal weight sort by symbol value. -/
theorem node_lt_tiebreak :
    (∀ (c1 : Option Nat) (f1 : Nat) (l1 r1 : NTree) (c2 : Option Nat) (f2 : Nat)
       (l2 r2 : NTree), f1 ≠ f2 →
        nodeLt (NTree.node c1 f1 l1 r1) (NTree.node c2 f2 l2 r2) = decide (f1 < f2)) ∧
    (∀ (a b f : Nat) (l1 r1 l2 r2 : NTree),
        nodeLt (NTree.node (some a) f l1 r1) (NTree.node (some b) f l2 r2) =
          decide (a < b)) ∧
    (∀ (a f : Nat) (l1 r1 l2 r2 : NTree),
        nodeLt (NTree.node (some a) f l1 r1) (NTree.node none f l2 r2) = true ∧
        nodeLt (NTree.node none f l1 r1) (NTree.node (some a) f l2 r2) = false) := by
  refine ⟨?_, ?_, ?_⟩
  · intro c1 f1 l1 r1 c2 f2 l2 r2 hne
    simp [nodeLt, if_neg hne]
  · intro a b f l1 r1 l2 r2
    simp [nodeLt]
  · intro a f l1 r1 l2 r2
    simp [nodeLt]

theorem node_lt_tiebreak_witness :
    nodeLt (NTree.node (some 7) 1 NTree.nil NTree.nil)
        (NTree.node (some 3) 2 NTree.nil NTree.nil) = decide ((1 : Nat) < 2) :=
  node_lt_tiebreak.1 (some 7) 1 NTree.nil NTree.nil (some 3) 2 NTree.nil NTree.nil
    (by decide)

/-! ### Single-symbol inputs (C1, C2) -/

/-- C1 (refuted on the code).  For the single-symbol input `b"ZZZZZ"` the
Huffman coder assigns the empty code, the encoded bitstream is empty, and
decoding it with the returned tree yields `b""`, not the input: the
round-trip invariant fails, exactly the failure `main.py`'s own integrity
check (lines 188-192) reports as an error. -/
theorem huffman_roundtrip_single_symbol_bug :
    huffDecode (huffmanEncode [90, 90, 90, 90, 90]).1
        (huffmanEncode [90, 90, 90, 90, 90]).2.2 = some [] ∧
    ([] : List Nat) ≠ [90, 90, 90, 90, 90] := by
  constructor
  · decide
  · decide

/-- C2 (refuted on the code for Huffman).  On a single-symbol input the
Huffman codebook maps the symbol to the empty bitstring, not to `"0"`;
the Shannon-Fano coder does assign the degenerate code `"0"`. -/
theorem single_symbol_codebook_bug :
    (huffmanEncode [90, 90, 90, 90, 90]).2.1 = [(90, ([] : List Bool))] ∧
    (shannonFanoEncode [90, 90, 90, 90, 90]).2.1 = [(90, [false])] ∧
    ([] : List Bool) ≠ [false] := by
  refine ⟨by decide, by decide, by decide⟩

/-! ### Decode fault behaviour (C3) -/

/-- C3 (refuted on the code).  When the bit-walk steps onto a missing
child, both decoders dereference `None` and raise `AttributeError` — an
uncontrolled crash that discards the symbols already decoded (modelled by
`none`) — instead of returning a distinguishable error value carrying the
decoded prefix.  Here the Shannon-Fano decoder on codebook
`{0: "0", 1: "10"}` crashes on `"011"` although the prefix `"0"` had
decoded to `[0]`, and the Huffman decoder crashes on `"0"` with the
single-leaf tree produced for a single-symbol input. -/
theorem decode_null_branch_crash :
    sfDecode [false, true, true] [(0, [false]), (1, [true, false])] = none ∧
    sfDecode [false] [(0, [false]), (1, [true, false])] = some [0] ∧
    huffDecode [false] (NTree.node (some 90) 5 NTree.nil NTree.nil) = none := by
  refine ⟨by decide, by decide, by decide⟩

/-! ### MSE under uint8 overflow (C8) -/

/-- C8 (refuted on the code).  `calculate_mse` subtracts and squares
`np.uint8` arrays, so arithmetic wraps modulo 256: for `bytes([0,0,0])`
against `bytes([255,255,255])` every per-position term is
`((0 - 255) mod 256)^2 mod 256 = 1` and the function returns `1.0`, not
the true mean squared difference `65025.0` promised by its own docstring
(`MSE = mean((A-B)^2)` over unsigned 0-255 values). -/
theorem mse_uint8_overflow_bug :
    calculate_mse [0, 0, 0] [255, 255, 255] = 1 ∧ (1 : ℚ) ≠ 65025 := by
  constructor
  · norm_num [calculate_mse]
  · norm_num

/-! ### Symbol error rate (C9) -/

/-- C9 counterexample.  `calculate_ser_text` returns `0.0` whenever the
shared prefix is empty — in particular for a non-empty `a` against an empty
`b`, where the claimed formula gives `(0 + |1 - 0|) / 1 = 1`. -/
theorem ser_empty_decoded_counterexample :
    calculate_ser_text [1] [] = 0 ∧ serClaim [1] [] = 1 ∧ (0 : ℚ) ≠ 1 := by
  refine ⟨by norm_num [calculate_ser_text], by norm_num [serClaim], by norm_num⟩

/-- C9 as amended: the claimed formula holds whenever both inputs are
non-empty, and the function returns `0.0` whenever either input is empty
(not only when `a` is). -/
theorem ser_text_amended (a b : List Nat) :
    (a ≠ [] → b ≠ [] → calculate_ser_text a b = serClaim a b) ∧
    ((a = [] ∨ b = []) → calculate_ser_text a b = 0) := by
  constructor
  · intro ha hb
    have ha' : a.length ≠ 0 := by simpa [List.length_eq_zero] using ha
    have hb' : b.length ≠ 0 := by simpa [List.length_eq_zero] using hb
    have hmin : ¬ (min a.length b.length = 0) := by
      rw [Nat.min_eq_zero_iff]
      omega
    simp [calculate_ser_text, serClaim, hmin, ha']
  · intro h
    have hmin : min a.length b.length = 0 := by
      rcases h with h | h <;> simp [h]
    simp [calculate_ser_text, hmin]

theorem ser_text_amended_witness :
    calculate_ser_text [1, 2] [1, 3] = serClaim [1, 2] [1, 3] ∧
    calculate_ser_text [5] [] = 0 :=
  ⟨(ser_text_amended [1, 2] [1, 3]).1 (by decide) (by decide),
   (ser_text_amended [5] []).2 (Or.inr rfl)⟩

/-! ### Bit packing round trip (C5) -/

theorem bitsOfByte_byteOfBits :
    ∀ a b c d e f g h : Bool,
      bitsOfByte (byteOfBits [a, b, c, d, e, f, g, h]) = [a, b, c, d, e, f, g, h] := by
  decide

theorem bitsToBytes_flatten (n : Nat) :
    ∀ bs : List Bool, bs.length = n → bs.length % 8 = 0 →
      ((bitsToBytes bs).map bitsOfByte).flatten = bs := by
  induction n using Nat.strong_induction_on with
  | _ n ih =>
    intro bs hlen hmod
    match bs with
    | [] => simp [bitsToBytes]
    | [b0] => simp at hmod
    | [b0, b1] => simp at hmod
    | [b0, b1, b2] => simp at hmod
    | [b0, b1, b2, b3] => simp at hmod
    | [b0, b1, b2, b3, b4] => simp at hmod
    | [b0, b1, b2, b3, b4, b5] => simp at hmod
    | [b0, b1, b2, b3, b4, b5, b6] => simp at hmod
    | b0 :: b1 :: b2 :: b3 :: b4 :: b5 :: b6 :: b7 :: rest =>
      have hr : rest.length % 8 = 0 := by
        simp only [List.length_cons] at hmod
        omega
      have hrlt : rest.length < n := by
        simp only [List.length_cons] at hlen
        omega
      have hrec := ih rest.length hrlt rest rfl hr
      simp only [bitsToBytes, List.map_cons, List.flatten_cons, hrec,
        bitsOfByte_byteOfBits]
      rfl

/-- C5.  `pack` right-pads with `(8 - len % 8) % 8` zero bits and packs
8-bit groups MSB-first; `unpack` of the result recovers the original
bitstream exactly. -/
theorem unpack_pack_roundtrip (bits : List Bool) :
    (pack bits).1 = (8 - bits.length % 8) % 8 ∧
    unpack (pack bits).1 (pack bits).2 = bits := by
  have hpad : packPad bits.length = (8 - bits.length % 8) % 8 := by
    unfold packPad
    split <;> omega
  constructor
  · simpa [pack] using hpad
  · have hmod : (bits ++ List.replicate (packPad bits.length) false).length % 8 = 0 := by
      simp only [List.length_append, List.length_replicate]
      unfold packPad
      split <;> omega
    have hflat := bitsToBytes_flatten
      (bits ++ List.replicate (packPad bits.length) false).length
      (bits ++ List.replicate (packPad bits.length) false) rfl hmod
    simp only [pack, unpack, hflat]
    by_cases hp : 0 < packPad bits.length
    · rw [if_pos hp]
      simp only [List.length_append, List.length_replicate]
      have hsub : bits.length + packPad bits.length - packPad bits.length = bits.length := by
        omega
      rw [hsub]
      exact List.take_left bits _
    · rw [if_neg hp]
      have h0 : packPad bits.length = 0 := by omega
      simp [h0]

/-! ### Shannon-Fano split search (C7) -/

theorem findSplitAcc_foldl_min (symbols : List (Nat × Nat)) :
    ∀ (L : List Nat) (m k : Nat), m = splitDiff symbols k →
      ∃ j, L.foldl (findSplitAcc symbols) (some m, k) = (some (splitDiff symbols j), j) ∧
        splitDiff symbols j ≤ m ∧ (j = k ∨ j ∈ L) ∧
        ∀ i ∈ L, splitDiff symbols j ≤ splitDiff symbols i := by
  intro L
  induction L with
  | nil =>
    intro m k hm
    refine ⟨k, ?_, le_of_eq hm.symm, Or.inl rfl, by simp⟩
    simp [hm]
  | cons i0 L ih =>
    intro m k hm
    simp only [List.foldl_cons]
    by_cases hlt : splitDiff symbols i0 < m
    · have hstep : findSplitAcc symbols (some m, k) i0 = (some (splitDiff symbols i0), i0) := by
        simp [findSplitAcc, hlt]
      rw [hstep]
      rcases ih (splitDiff symbols i0) i0 rfl with ⟨j, hj1, hj2, hj3, hj4⟩
      refine ⟨j, hj1, le_trans hj2 (le_of_lt hlt), ?_, ?_⟩
      · right
        rcases hj3 with h | h
        · rw [h]
          exact List.mem_cons_self i0 L
        · exact List.mem_cons_of_mem i0 h
      · intro i hi
        rcases List.mem_cons.1 hi with rfl | hi
        · exact hj2
        · exact hj4 i hi
    · have hstep : findSplitAcc symbols (some m, k) i0 = (some m, k) := by
        simp [findSplitAcc, hlt]
      rw [hstep]
      rcases ih m k hm with ⟨j, hj1, hj2, hj3, hj4⟩
      refine ⟨j, hj1, hj2, ?_, ?_⟩
      · rcases hj3 with h | h
        · exact Or.inl h
        · exact Or.inr (List.mem_cons_of_mem i0 h)
      · intro i hi
        rcases List.mem_cons.1 hi with rfl | hi
        · exact le_trans hj2 (Nat.le_of_not_lt hlt)
        · exact hj4 i hi

theorem findSplit_min (symbols : List (Nat × Nat)) (h2 : 2 ≤ symbols.length) :
    findSplit symbols + 1 < symbols.length ∧
    ∀ i, i < symbols.length - 1 →
      splitDiff symbols (findSplit symbols) ≤ splitDiff symbols i := by
  obtain ⟨n, hn⟩ : ∃ n, symbols.length - 1 = n + 1 := ⟨symbols.length - 2, by omega⟩
  have key : ∃ j, findSplit symbols = j ∧
      (j = 0 ∨ j ∈ List.map Nat.succ (List.range n)) ∧
      splitDiff symbols j ≤ splitDiff symbols 0 ∧
      ∀ i ∈ List.map Nat.succ (List.range n),
        splitDiff symbols j ≤ splitDiff symbols i := by
    unfold findSplit
    rw [hn, List.range_succ_eq_map, List.foldl_cons]
    have hstep : findSplitAcc symbols (none, 0) 0 = (some (splitDiff symbols 0), 0) := by
      simp [findSplitAcc]
    rw [hstep]
    rcases findSplitAcc_foldl_min symbols (List.map Nat.succ (List.range n))
        (splitDiff symbols 0) 0 rfl with ⟨j, hj1, hj2, hj3, hj4⟩
    refine ⟨j, ?_, hj3, hj2, hj4⟩
    rw [hj1]
  rcases key with ⟨j, hfs, hj3, hj2, hj4⟩
  rw [hfs]
  constructor
  · rcases hj3 with rfl | h
    · omega
    · rcases List.mem_map.1 h with ⟨i, hi, rfl⟩
      have := List.mem_range.1 hi
      omega
  · intro i hilt
    rw [hn] at hilt
    rcases Nat.eq_zero_or_pos i with rfl | hpos
    · exact hj2
    · refine hj4 i ?_
      rcases Nat.exists_eq_add_of_lt hpos with ⟨i', hi'⟩
      have : i = i' + 1 := by omega
      rw [this]
      exact List.mem_map.2 ⟨i', List.mem_range.2 (by omega), rfl⟩

/-- C7.  `ShannonFanoCoder.encode` sorts the distinct symbols by descending
frequency, and `_recursive_split` splits every list of two or more symbols
into two contiguous non-empty parts at an index attaining the global
minimum of `|sum(left) - sum(right)|`, recursing with `"0"` appended on the
left and `"1"` on the right; a singleton receives its accumulated prefix,
defaulting to `"0"` when that prefix is empty. -/
theorem shannon_fano_split_spec :
    (∀ d : List Nat, d ≠ [] →
        (shannonFanoEncode d).2.1 =
            sfSplitN (sortDesc (counterItems d)).length (sortDesc (counterItems d)) [] [] ∧
          (sortDesc (counterItems d)).Pairwise sfr ∧
          (sortDesc (counterItems d)).Perm (counterItems d)) ∧
    (∀ (fuel : Nat) (symbols : List (Nat × Nat)) (code : List Bool)
        (codes : List (Nat × List Bool)), 2 ≤ symbols.length →
        findSplit symbols + 1 < symbols.length ∧
          (∀ i, i < symbols.length - 1 →
            splitDiff symbols (findSplit symbols) ≤ splitDiff symbols i) ∧
          sfSplitN (fuel + 1) symbols code codes =
            sfSplitN fuel (symbols.drop (findSplit symbols + 1)) (code ++ [true])
              (sfSplitN fuel (symbols.take (findSplit symbols + 1)) (code ++ [false]) codes)) ∧
    (∀ (fuel : Nat) (s : Nat × Nat) (code : List Bool) (codes : List (Nat × List Bool)),
        sfSplitN (fuel + 1) [s] code codes =
          dictSet codes s.1 (if code = [] then [false] else code)) := by
  refine ⟨?_, ?_, ?_⟩
  · intro d hd
    refine ⟨?_, List.sorted_insertionSort sfr (counterItems d), List.perm_insertionSort sfr _⟩
    simp [shannonFanoEncode, if_neg hd, sortDesc]
  · intro fuel symbols code codes h2
    have hmin := findSplit_min symbols h2
    rcases symbols with _ | ⟨a, _ | ⟨b, rest⟩⟩
    · simp at h2
    · simp at h2
    · exact ⟨hmin.1, hmin.2, rfl⟩
  · intro fuel s code codes
    rfl

theorem shannon_fano_split_spec_witness :
    ((shannonFanoEncode [7, 7, 5]).2.1 =
        sfSplitN (sortDesc (counterItems [7, 7, 5])).length
          (sortDesc (counterItems [7, 7, 5])) [] [] ∧
      (sortDesc (counterItems [7, 7, 5])).Pairwise sfr ∧
      (sortDesc (counterItems [7, 7, 5])).Perm (counterItems [7, 7, 5])) ∧
    (findSplit [(7, 2), (5, 1)] + 1 < 2 ∧
      (∀ i, i < 1 → splitDiff [(7, 2), (5, 1)] (findSplit [(7, 2), (5, 1)]) ≤
        splitDiff [(7, 2), (5, 1)] i) ∧
      sfSplitN 2 [(7, 2), (5, 1)] [] [] =
        sfSplitN 1 ([(7, 2), (5, 1)].drop (findSplit [(7, 2), (5, 1)] + 1)) [true]
          (sfSplitN 1 ([(7, 2), (5, 1)].take (findSplit [(7, 2), (5, 1)] + 1)) [false] [])) ∧
    sfSplitN 1 [(9, 4)] [] [] = dictSet [] 9 (if ([] : List Bool) = [] then [false] else []) :=
  ⟨shannon_fano_split_spec.1 [7, 7, 5] (by decide),
   shannon_fano_split_spec.2.1 1 [(7, 2), (5, 1)] [] [] (by decide),
   shannon_fano_split_spec.2.2 0 (9, 4) [] []⟩

/-! ### Trailing incomplete bits are silently discarded (C10) -/

theorem decodeLoop_eq_stLoop (root : NTree) :
    ∀ (bs : List Bool) (cur : NTree) (acc : List Nat),
      decodeLoop root bs cur acc =
        (decodeStLoop root bs cur acc).map (fun p => p.2.reverse) := by
  intro bs
  induction bs with
  | nil => intro cur acc; simp [decodeLoop, decodeStLoop]
  | cons b bs ih =>
    intro cur acc
    cases cur with
    | nil => simp [decodeLoop, decodeStLoop]
    | node c f l r =>
      simp only [decodeLoop, decodeStLoop]
      cases hc : (if b then r else l) with
      | nil => simp
      | node c2 f2 l2 r2 =>
        cases c2 with
        | none => simp [ih]
        | some ch => simp [ih]

theorem decodeStLoop_append (root : NTree) :
    ∀ (xs ys : List Bool) (cur : NTree) (acc : List Nat),
      decodeStLoop root (xs ++ ys) cur acc =
        (decodeStLoop root xs cur acc).bind (fun p => decodeStLoop root ys p.1 p.2) := by
  intro xs
  induction xs with
  | nil => intro ys cur acc; simp [decodeStLoop]
  | cons b xs ih =>
    intro ys cur acc
    cases cur with
    | nil => simp [decodeStLoop]
    | node c f l r =>
      simp only [List.cons_append, decodeStLoop]
      cases hc : (if b then r else l) with
      | nil => simp
      | node c2 f2 l2 r2 =>
        cases c2 with
        | none => simp [ih]
        | some ch => simp [ih]

theorem decodeStLoop_no_emit (root : NTree) :
    ∀ (extra : List Bool) (cur : NTree) (acc : List Nat),
      isIntNode cur = true →
      (∀ k, k < extra.length → isIntNode (walkFrom cur (extra.take (k + 1))) = true) →
      decodeStLoop root extra cur acc = some (walkFrom cur extra, acc) := by
  intro extra
  induction extra with
  | nil => intro cur acc hcur hk; simp [decodeStLoop, walkFrom]
  | cons b rest ih =>
    intro cur acc hcur hk
    cases cur with
    | nil => simp [isIntNode] at hcur
    | node c f l r =>
      have hc : c = none := by
        cases c with
        | none => rfl
        | some x => simp [isIntNode] at hcur
      subst hc
      have h0 := hk 0 (by simp)
      have hwalk0 : walkFrom (NTree.node none f l r) ((b :: rest).take 1) =
          (if b then r else l) := by
        simp [walkFrom, childOf]
      rw [hwalk0] at h0
      simp only [decodeStLoop]
      cases hchild : (if b then r else l) with
      | nil =>
        rw [hchild] at h0
        simp [isIntNode] at h0
      | node c2 f2 l2 r2 =>
        rw [hchild] at h0
        have hc2 : c2 = none := by
          cases c2 with
          | none => rfl
          | some x => simp [isIntNode] at h0
        subst hc2
        have harg : ∀ k, k < rest.length →
            isIntNode (walkFrom (NTree.node none f2 l2 r2) (rest.take (k + 1))) = true := by
          intro k hkk
          have h := hk (k + 1) (by simpa using Nat.succ_lt_succ hkk)
          simp only [List.take_succ_cons, walkFrom, List.foldl_cons] at h
          simpa [walkFrom, childOf, hchild] using h
        show decodeStLoop root rest (NTree.node none f2 l2 r2) acc =
          some (walkFrom (NTree.node none f l r) (b :: rest), acc)
        rw [ih (NTree.node none f2 l2 r2) acc (by simp [isIntNode]) harg]
        simp [walkFrom, childOf, hchild]

/-- C10.  For a fully-branching tree with an internal root, splitting a
bitstream as `done ++ extra` — where `done` ends exactly after the last
completed code (the walk is back at the root) and every partial walk of
`extra` stays on internal nodes (the trailing bits complete no code) — the
decoder raises no error and returns exactly the symbols of the completed
codes, silently discarding the trailing incomplete bits. -/
theorem huffman_decode_trailing_bits (root : NTree) (done extra : List Bool)
    (hfull : isFull root = true) (hroot : isIntNode root = true)
    (hdone : (decodeStLoop root done root []).map Prod.fst = some root)
    (hextra : ∀ k, k < extra.length →
      isIntNode (walkFrom root (extra.take (k + 1))) = true) :
    huffDecode (done ++ extra) root = huffDecode done root ∧
    (huffDecode (done ++ extra) root).isSome = true := by
  have hrn : root ≠ NTree.nil := by
    intro h
    rw [h] at hroot
    simp [isIntNode] at hroot
  obtain ⟨acc, hst⟩ : ∃ acc, decodeStLoop root done root [] = some (root, acc) := by
    cases h : decodeStLoop root done root [] with
    | none =>
      rw [h] at hdone
      simp at hdone
    | some p =>
      rcases p with ⟨st, acc⟩
      rw [h] at hdone
      have hst2 : st = root := by simpa using hdone
      refine ⟨acc, ?_⟩
      rw [hst2]
  have hLtot : decodeStLoop root (done ++ extra) root [] = some (walkFrom root extra, acc) := by
    rw [decodeStLoop_append root done extra root [], hst]
    simpa using decodeStLoop_no_emit root extra root acc hroot hextra
  have hdecL : decodeLoop root (done ++ extra) root [] = some acc.reverse := by
    rw [decodeLoop_eq_stLoop, hLtot]
    rfl
  have hdecD : decodeLoop root done root [] = some acc.reverse := by
    rw [decodeLoop_eq_stLoop, hst]
    rfl
  have heq : huffDecode (done ++ extra) root = huffDecode done root := by
    by_cases hde : done ++ extra = []
    · have hd0 : done = [] := (List.append_eq_nil.1 hde).1
      have he0 : extra = [] := (List.append_eq_nil.1 hde).2
      rw [hd0, he0]
      rfl
    · rw [huffDecode, if_neg (by push_neg; exact ⟨hde, hrn⟩), hdecL]
      by_cases hd0 : done = []
      · have hacc : acc = [] := by
          rw [hd0] at hst
          simpa [decodeStLoop] using hst.symm
        rw [hd0, hacc]
        simp [huffDecode]
      · rw [huffDecode, if_neg (by push_neg; exact ⟨hd0, hrn⟩), hdecD]
  refine ⟨heq, ?_⟩
  rw [heq]
  by_cases hd0 : done = []
  · rw [hd0]
    simp [huffDecode]
  · rw [huffDecode, if_neg (by push_neg; exact ⟨hd0, hrn⟩), hdecD]
    rfl

theorem huffman_decode_trailing_bits_witness :
    huffDecode ([true, false] ++ [true])
        (NTree.node none 3 (NTree.node (some 0) 1 NTree.nil NTree.nil)
          (NTree.node none 2 (NTree.node (some 1) 1 NTree.nil NTree.nil)
            (NTree.node (some 2) 1 NTree.nil NTree.nil))) =
      huffDecode [true, false]
        (NTree.node none 3 (NTree.node (some 0) 1 NTree.nil NTree.nil)
          (NTree.node none 2 (NTree.node (some 1) 1 NTree.nil NTree.nil)
            (NTree.node (some 2) 1 NTree.nil NTree.nil))) ∧
    (huffDecode ([true, false] ++ [true])
        (NTree.node none 3 (NTree.node (some 0) 1 NTree.nil NTree.nil)
          (NTree.node none 2 (NTree.node (some 1) 1 NTree.nil NTree.nil)
            (NTree.node (some 2) 1 NTree.nil NTree.nil)))).isSome = true :=
  huffman_decode_trailing_bits
    (NTree.node none 3 (NTree.node (some 0) 1 NTree.nil NTree.nil)
      (NTree.node none 2 (NTree.node (some 1) 1 NTree.nil NTree.nil)
        (NTree.node (some 2) 1 NTree.nil NTree.nil)))
    [true, false] [true] (by decide) (by decide) (by decide) (by decide)
